import Mathlib

/-!
Verification of the elevation-profile derivation engine of the
openskidata-format repository (`ElevationProfile.ts`).

The embedding works over exact rationals (`ℚ`); JavaScript `number`
arithmetic is modelled exactly, which is the standard reading of the
spec "up to floating-point precision" clauses.

The external geodesic primitives from turf (point-to-point `distance`,
polyline `length`, and `lineChunk`) as well as `Math.sqrt` are not part
of the repository; they are passed in as explicit function parameters
(`D`, `LC`, `sq`).  `turf.length` of a polyline is the sum of the
point-to-point distances of consecutive coordinate pairs, computed on
the horizontal (longitude/latitude) components only, so it is derived
from `D` by `lineLength`.
-/

namespace OpenSkiData

/-- A GeoJSON position: a JavaScript array of numbers.  Index 0 is the
longitude, index 1 the latitude, index 2 (when present) the elevation
in meters.  `p.length ≥ 3` means the vertex carries elevation. -/
abbrev Pos : Type := List ℚ

/-- The horizontal (longitude, latitude) components of a position, as
used by turf `distance`: elements 0 and 1 of the array (JavaScript
yields `undefined` outside the array; all uses in the source are on
arrays of length ≥ 2, so a default of 0 is unobservable). -/
def key (p : Pos) : ℚ × ℚ := (p.getD 0 0, p.getD 1 0)

/-- Sum `f a b` over consecutive pairs of a coordinate list (the loop
`for i in 0 .. n-2` over `coordinates[i], coordinates[i+1]`). -/
def pairwiseSum (f : Pos → Pos → ℚ) : List Pos → ℚ
  | a :: b :: rest => f a b + pairwiseSum f (b :: rest)
  | _ => 0

/-- The function turf length of a LineString: the sum of geodesic distances of
consecutive coordinate pairs (horizontal components only). -/
def lineLength (D : ℚ × ℚ → ℚ × ℚ → ℚ) (coords : List Pos) : ℚ :=
  pairwiseSum (fun a b => D (key a) (key b)) coords

/-- The function horizontalResolutionFitting of ElevationProfile.ts: the fitted
resolution `totalLength / ⌈totalLength / minResolution⌉`, or `0` for a
zero-length path. -/
def horizontalResolutionFitting (D : ℚ × ℚ → ℚ × ℚ → ℚ) (coords : List Pos)
    (minResolution : ℚ) : ℚ :=
  let totalLength := lineLength D coords
  if totalLength = 0 then 0
  else
    let numSegments : ℤ := ⌈totalLength / minResolution⌉
    totalLength / (numSegments : ℚ)

/-- A squared-Euclidean distance on horizontal coordinates: a concrete
computable stand-in for the geodesic primitive, used to instantiate
witnesses.  It is nonnegative and vanishes exactly on horizontally
coincident points, which is all the theorems ask of `D`. -/
def sqD (a b : ℚ × ℚ) : ℚ :=
  (a.1 - b.1) * (a.1 - b.1) + (a.2 - b.2) * (a.2 - b.2)

/-- C2: for a path of positive geodesic length `L` and `minResolution
`m` > 0`, the fitted resolution `r` satisfies `r ≤ m` and `L / r` is
exactly the integer `⌈L / m⌉`; a zero-length path yields `0`. -/
theorem horizontalResolutionFitting_spec (D : ℚ × ℚ → ℚ × ℚ → ℚ)
    (coords : List Pos) (m : ℚ) (hm : 0 < m) :
    (0 < lineLength D coords →
      horizontalResolutionFitting D coords m ≤ m ∧
      lineLength D coords / horizontalResolutionFitting D coords m =
        ((⌈lineLength D coords / m⌉ : ℤ) : ℚ)) ∧
    (lineLength D coords = 0 → horizontalResolutionFitting D coords m = 0) := by
  constructor
  · intro hL
    set L := lineLength D coords with hLdef
    have hL0 : L ≠ 0 := ne_of_gt hL
    have hceil : (0 : ℤ) < ⌈L / m⌉ := by
      rw [Int.ceil_pos]
      positivity
    have hceilQ : (0 : ℚ) < ((⌈L / m⌉ : ℤ) : ℚ) := by exact_mod_cast hceil
    have hfit : horizontalResolutionFitting D coords m = L / ((⌈L / m⌉ : ℤ) : ℚ) := by
      simp only [horizontalResolutionFitting, hL0, if_false, ← hLdef]
    constructor
    · rw [hfit]
      rw [div_le_iff₀ hceilQ]
      have hle : L / m ≤ ((⌈L / m⌉ : ℤ) : ℚ) := Int.le_ceil _
      calc L = (L / m) * m := by field_simp
        _ ≤ ((⌈L / m⌉ : ℤ) : ℚ) * m := by
            exact mul_le_mul_of_nonneg_right hle (le_of_lt hm)
        _ = m * ((⌈L / m⌉ : ℤ) : ℚ) := by ring
    · rw [hfit]
      field_simp
  · intro hL
    simp only [horizontalResolutionFitting, hL, if_true]

/-- Witness for C2 at a concrete two-vertex path of squared-Euclidean
length 25 with `minResolution = 25`. -/
theorem horizontalResolutionFitting_spec_witness :
    horizontalResolutionFitting sqD [[0, 0], [3, 4]] 25 ≤ 25 ∧
    lineLength sqD [[0, 0], [3, 4]] /
        horizontalResolutionFitting sqD [[0, 0], [3, 4]] 25 =
      ((⌈lineLength sqD [[0, 0], [3, 4]] / 25⌉ : ℤ) : ℚ) := by
  have h := horizontalResolutionFitting_spec sqD [[0, 0], [3, 4]] 25 (by norm_num)
  refine h.1 ?_
  simp [lineLength, pairwiseSum, sqD, key]
  norm_num

/-- The error taxonomy of the engine.  Each constructor corresponds to
one failure site of ElevationProfile.ts: the `throw` statements, plus
`outOfBounds` for the JavaScript crashes an unguarded out-of-range
array access would produce (reading a property of `undefined`). -/
inductive ElevErr : Type where
  | outOfBounds
  | elevationRequiredSlope
  | emptyCoordinates
  | elevationRequiredAnalysis
  | pointsMismatch
  | resolutionMismatch
  | insufficientReferenceData
  | sequenceViolation
  | alreadyElevated
deriving DecidableEq, Repr

/-- The `AscentDescentData` record of ElevationProfile.ts. -/
structure AscentDescentData : Type where
  ascentInMeters : ℚ
  descentInMeters : ℚ
  minElevationInMeters : ℚ
  maxElevationInMeters : ℚ
  verticalInMeters : ℚ
deriving DecidableEq, Repr

/-- The accumulator object of the `reduce` in `getAscentAndDescent`. -/
structure AscentState : Type where
  ascent : ℚ
  descent : ℚ
  minElevation : ℚ
  maxElevation : ℚ
  lastElevation : ℚ
deriving DecidableEq, Repr

/-- One step of the `reduce` in `getAscentAndDescent`: positive
consecutive differences feed `ascent`, the rest feed `descent`
(subtracting a nonpositive difference), and the extrema are tracked. -/
def ascentStep (acc : AscentState) (e : ℚ) : AscentState :=
  let a := e - acc.lastElevation
  ⟨if a > 0 then acc.ascent + a else acc.ascent,
   if a > 0 then acc.descent else acc.descent - a,
   min e acc.minElevation,
   max e acc.maxElevation,
   e⟩

/-- The function getAscentAndDescent of ElevationProfile.ts: errors on an empty
path or a first vertex without elevation, otherwise folds `ascentStep`
over the elevations of all vertices starting from the first one. -/
def getAscentAndDescent (coords : List Pos) : Except ElevErr AscentDescentData :=
  match coords with
  | [] => .error .emptyCoordinates
  | c0 :: _ =>
    if c0.length < 3 then .error .elevationRequiredAnalysis
    else
      let initialElevation := c0.getD 2 0
      let elevs := coords.map (fun p => p.getD 2 0)
      let r := elevs.foldl ascentStep
        ⟨0, 0, initialElevation, initialElevation, initialElevation⟩
      .ok ⟨r.ascent, r.descent, r.minElevation, r.maxElevation,
           r.maxElevation - r.minElevation⟩

/-- The consecutive elevation differences of a sequence (later minus
earlier), the quantity the spec ascent/descent sums range over. -/
def consecDiffs (es : List ℚ) : List ℚ :=
  List.zipWith (fun a b => b - a) es es.tail

/-- Spec-side ascent: the sum of all positive consecutive elevation
differences (nonpositive differences contribute nothing). -/
def specAscent (es : List ℚ) : ℚ :=
  ((consecDiffs es).map (fun d => if 0 < d then d else 0)).sum

/-- Spec-side descent: the sum of magnitudes of all negative
consecutive elevation differences (nonnegative ones contribute
nothing). -/
def specDescent (es : List ℚ) : ℚ :=
  ((consecDiffs es).map (fun d => if d < 0 then -d else 0)).sum

theorem consecDiffs_cons (a b : ℚ) (rest : List ℚ) :
    consecDiffs (a :: b :: rest) = (b - a) :: consecDiffs (b :: rest) := rfl

/-- Characterization of the `getAscentAndDescent` fold: ascent and
descent accumulate the spec-side sums over the chain starting at the
accumulator field `lastElevation`, and the extrema are `min`/`max` folds. -/
theorem ascentFold_spec (es : List ℚ) : ∀ acc : AscentState,
    (es.foldl ascentStep acc).ascent =
      acc.ascent + specAscent (acc.lastElevation :: es) ∧
    (es.foldl ascentStep acc).descent =
      acc.descent + specDescent (acc.lastElevation :: es) ∧
    (es.foldl ascentStep acc).minElevation = es.foldl min acc.minElevation ∧
    (es.foldl ascentStep acc).maxElevation = es.foldl max acc.maxElevation := by
  induction es with
  | nil =>
    intro acc
    simp [specAscent, specDescent, consecDiffs]
  | cons e rest ih =>
    intro acc
    have hstep := ih (ascentStep acc e)
    have hd : consecDiffs (acc.lastElevation :: e :: rest) =
        (e - acc.lastElevation) :: consecDiffs (e :: rest) := rfl
    have hlast : (ascentStep acc e).lastElevation = e := rfl
    refine ⟨?_, ?_, ?_, ?_⟩
    · rw [List.foldl_cons, hstep.1, hlast]
      simp only [specAscent, hd, List.map_cons, List.sum_cons]
      by_cases hpos : 0 < e - acc.lastElevation
      · rw [if_pos hpos]
        show (if e - acc.lastElevation > 0 then acc.ascent + (e - acc.lastElevation)
              else acc.ascent) + _ = _
        rw [if_pos hpos]
        ring
      · rw [if_neg hpos]
        show (if e - acc.lastElevation > 0 then acc.ascent + (e - acc.lastElevation)
              else acc.ascent) + _ = _
        rw [if_neg hpos]
        ring
    · rw [List.foldl_cons, hstep.2.1, hlast]
      simp only [specDescent, hd, List.map_cons, List.sum_cons]
      by_cases hneg : e - acc.lastElevation < 0
      · have hnpos : ¬(e - acc.lastElevation > 0) := by linarith
        rw [if_pos hneg]
        show (if e - acc.lastElevation > 0 then acc.descent
              else acc.descent - (e - acc.lastElevation)) + _ = _
        rw [if_neg hnpos]
        ring
      · rw [if_neg hneg]
        show (if e - acc.lastElevation > 0 then acc.descent
              else acc.descent - (e - acc.lastElevation)) + _ = _
        by_cases hpos : e - acc.lastElevation > 0
        · rw [if_pos hpos]
          ring
        · have hz : e - acc.lastElevation = 0 := by
            have h1 : 0 ≤ e - acc.lastElevation := not_lt.mp hneg
            have h2 : e - acc.lastElevation ≤ 0 := not_lt.mp hpos
            linarith
          rw [if_neg hpos, hz]
          ring
    · rw [List.foldl_cons, hstep.2.2.1]
      show List.foldl min (min e acc.minElevation) rest =
        List.foldl min (min acc.minElevation e) rest
      rw [min_comm]
    · rw [List.foldl_cons, hstep.2.2.2]
      show List.foldl max (max e acc.maxElevation) rest =
        List.foldl max (max acc.maxElevation e) rest
      rw [max_comm]

/-- A `min`-fold is a lower bound of its start and all elements. -/
theorem foldl_min_le (es : List ℚ) : ∀ m : ℚ,
    es.foldl min m ≤ m ∧ ∀ e ∈ es, es.foldl min m ≤ e := by
  induction es with
  | nil => intro m; simp
  | cons a rest ih =>
    intro m
    have h := ih (min m a)
    constructor
    · rw [List.foldl_cons]
      exact le_trans h.1 (min_le_left _ _)
    · intro e he
      rcases List.mem_cons.mp he with rfl | hmem
      · rw [List.foldl_cons]
        exact le_trans h.1 (min_le_right _ _)
      · rw [List.foldl_cons]
        exact h.2 e hmem

/-- A `min`-fold is its start or one of the elements. -/
theorem foldl_min_mem (es : List ℚ) : ∀ m : ℚ,
    es.foldl min m = m ∨ es.foldl min m ∈ es := by
  induction es with
  | nil => intro m; simp
  | cons a rest ih =>
    intro m
    rw [List.foldl_cons]
    rcases ih (min m a) with h | h
    · rcases min_cases m a with ⟨hmin, _⟩ | ⟨hmin, _⟩
      · exact Or.inl (h.trans hmin)
      · exact Or.inr (List.mem_cons.mpr (Or.inl (h.trans hmin)))
    · exact Or.inr (List.mem_cons.mpr (Or.inr h))

/-- A `max`-fold is an upper bound of its start and all elements. -/
theorem foldl_max_le (es : List ℚ) : ∀ m : ℚ,
    m ≤ es.foldl max m ∧ ∀ e ∈ es, e ≤ es.foldl max m := by
  induction es with
  | nil => intro m; simp
  | cons a rest ih =>
    intro m
    have h := ih (max m a)
    constructor
    · rw [List.foldl_cons]
      exact le_trans (le_max_left _ _) h.1
    · intro e he
      rcases List.mem_cons.mp he with rfl | hmem
      · rw [List.foldl_cons]
        exact le_trans (le_max_right _ _) h.1
      · rw [List.foldl_cons]
        exact h.2 e hmem

/-- A `max`-fold is its start or one of the elements. -/
theorem foldl_max_mem (es : List ℚ) : ∀ m : ℚ,
    es.foldl max m = m ∨ es.foldl max m ∈ es := by
  induction es with
  | nil => intro m; simp
  | cons a rest ih =>
    intro m
    rw [List.foldl_cons]
    rcases ih (max m a) with h | h
    · rcases max_cases m a with ⟨hmax, _⟩ | ⟨hmax, _⟩
      · exact Or.inl (h.trans hmax)
      · exact Or.inr (List.mem_cons.mpr (Or.inl (h.trans hmax)))
    · exact Or.inr (List.mem_cons.mpr (Or.inr h))

theorem specAscent_self_cons (x : ℚ) (l : List ℚ) :
    specAscent (x :: x :: l) = specAscent (x :: l) := by
  simp [specAscent, consecDiffs, sub_self]

theorem specDescent_self_cons (x : ℚ) (l : List ℚ) :
    specDescent (x :: x :: l) = specDescent (x :: l) := by
  simp [specDescent, consecDiffs, sub_self]

/-- C7: on a non-empty, fully elevated path, `getAscentAndDescent`
returns the sum of positive consecutive elevation differences as
ascent, the sum of magnitudes of negative ones as descent, the extrema
of the vertex elevations as min/max, and their difference as
vertical. -/
theorem getAscentAndDescent_spec (coords : List Pos) (c0 : Pos) (rest : List Pos)
    (hc : coords = c0 :: rest) (helev : ∀ p ∈ coords, 3 ≤ p.length) :
    ∃ r : AscentDescentData, getAscentAndDescent coords = .ok r ∧
      r.ascentInMeters = specAscent (coords.map (fun p => p.getD 2 0)) ∧
      r.descentInMeters = specDescent (coords.map (fun p => p.getD 2 0)) ∧
      r.minElevationInMeters ∈ coords.map (fun p => p.getD 2 0) ∧
      (∀ e ∈ coords.map (fun p => p.getD 2 0), r.minElevationInMeters ≤ e) ∧
      r.maxElevationInMeters ∈ coords.map (fun p => p.getD 2 0) ∧
      (∀ e ∈ coords.map (fun p => p.getD 2 0), e ≤ r.maxElevationInMeters) ∧
      r.verticalInMeters = r.maxElevationInMeters - r.minElevationInMeters := by
  subst hc
  have h3 : 3 ≤ c0.length := helev c0 (List.mem_cons_self _ _)
  have hlt : ¬(c0.length < 3) := not_lt.mpr h3
  set i := c0.getD 2 0 with hi
  set es := (c0 :: rest).map (fun p => p.getD 2 0) with hes
  have hesc : es = i :: rest.map (fun p => p.getD 2 0) := by
    simp [hes, hi]
  set acc0 : AscentState := ⟨0, 0, i, i, i⟩ with hacc0
  have hfold := ascentFold_spec es acc0
  have hmin_le := foldl_min_le es i
  have hmin_mem := foldl_min_mem es i
  have hmax_le := foldl_max_le es i
  have hmax_mem := foldl_max_mem es i
  refine ⟨⟨(es.foldl ascentStep acc0).ascent, (es.foldl ascentStep acc0).descent,
      (es.foldl ascentStep acc0).minElevation, (es.foldl ascentStep acc0).maxElevation,
      (es.foldl ascentStep acc0).maxElevation - (es.foldl ascentStep acc0).minElevation⟩,
    ?_, ?_, ?_, ?_, ?_, ?_, ?_, rfl⟩
  · show getAscentAndDescent (c0 :: rest) = _
    simp only [getAscentAndDescent, hlt, if_false, ← hi, ← hes, ← hacc0]
  · show (es.foldl ascentStep acc0).ascent = specAscent es
    rw [hfold.1]
    have : acc0.lastElevation = i := rfl
    rw [this, hesc, specAscent_self_cons, ← hesc, hacc0]
    show (0 : ℚ) + _ = _
    ring
  · show (es.foldl ascentStep acc0).descent = specDescent es
    rw [hfold.2.1]
    have : acc0.lastElevation = i := rfl
    rw [this, hesc, specDescent_self_cons, ← hesc, hacc0]
    show (0 : ℚ) + _ = _
    ring
  · show (es.foldl ascentStep acc0).minElevation ∈ es
    rw [hfold.2.2.1]
    show es.foldl min acc0.minElevation ∈ es
    have : acc0.minElevation = i := rfl
    rw [this]
    rcases hmin_mem with h | h
    · rw [h, hesc]; exact List.mem_cons_self _ _
    · exact h
  · intro e he
    show (es.foldl ascentStep acc0).minElevation ≤ e
    rw [hfold.2.2.1]
    exact hmin_le.2 e he
  · show (es.foldl ascentStep acc0).maxElevation ∈ es
    rw [hfold.2.2.2]
    show es.foldl max acc0.maxElevation ∈ es
    have : acc0.maxElevation = i := rfl
    rw [this]
    rcases hmax_mem with h | h
    · rw [h, hesc]; exact List.mem_cons_self _ _
    · exact h
  · intro e he
    show e ≤ (es.foldl ascentStep acc0).maxElevation
    rw [hfold.2.2.2]
    exact hmax_le.2 e he

/-- Witness for C7 at the spec example path with elevations
`[100, 150, 130, 180]`: ascent 100, descent 20, min 100, max 180,
vertical 80. -/
theorem getAscentAndDescent_spec_witness :
    getAscentAndDescent [[0, 0, 100], [1, 0, 150], [2, 0, 130], [3, 0, 180]] =
      .ok ⟨100, 20, 100, 180, 80⟩ ∧
    (∃ r : AscentDescentData,
      getAscentAndDescent [[0, 0, 100], [1, 0, 150], [2, 0, 130], [3, 0, 180]] = .ok r ∧
      r.ascentInMeters =
        specAscent ([[0, 0, 100], [1, 0, 150], [2, 0, 130], [3, 0, 180]].map
          (fun p => p.getD 2 0)) ∧
      r.descentInMeters =
        specDescent ([[0, 0, 100], [1, 0, 150], [2, 0, 130], [3, 0, 180]].map
          (fun p => p.getD 2 0)) ∧
      r.minElevationInMeters ∈ ([[0, 0, 100], [1, 0, 150], [2, 0, 130], [3, 0, 180]].map
          (fun p => p.getD 2 0)) ∧
      (∀ e ∈ ([[0, 0, 100], [1, 0, 150], [2, 0, 130], [3, 0, 180]].map
          (fun p => p.getD 2 0)), r.minElevationInMeters ≤ e) ∧
      r.maxElevationInMeters ∈ ([[0, 0, 100], [1, 0, 150], [2, 0, 130], [3, 0, 180]].map
          (fun p => p.getD 2 0)) ∧
      (∀ e ∈ ([[0, 0, 100], [1, 0, 150], [2, 0, 130], [3, 0, 180]].map
          (fun p => p.getD 2 0)), e ≤ r.maxElevationInMeters) ∧
      r.verticalInMeters = r.maxElevationInMeters - r.minElevationInMeters) := by
  constructor
  · norm_num [getAscentAndDescent, ascentStep, min_def, max_def]
  · exact getAscentAndDescent_spec _ _ _ rfl (by norm_num)

/-- The `PitchData` record of ElevationProfile.ts; the three nullable
pitch fields are `Option`s. -/
structure PitchData : Type where
  averagePitchInPercent : Option ℚ
  maxPitchInPercent : Option ℚ
  inclinedLengthInMeters : ℚ
  overallPitchInPercent : Option ℚ
  pitchCalculationResolutionInMeters : ℚ
deriving DecidableEq, Repr

/-- The accumulator totalInclinedLength of getPitchData: the sum over original
segments of `sqrt(horizontalLength² + elevationDelta²)`, with `sq`
standing for `Math.sqrt`. -/
def inclinedLength (D : ℚ × ℚ → ℚ × ℚ → ℚ) (sq : ℚ → ℚ) (coords : List Pos) : ℚ :=
  pairwiseSum (fun a b =>
    sq (D (key a) (key b) * D (key a) (key b) +
        (b.getD 2 0 - a.getD 2 0) * (b.getD 2 0 - a.getD 2 0))) coords

/-- The accumulator totalElevationChange of getPitchData: the sum of absolute
elevation deltas over original segments. -/
def totalAbsElevationChange (coords : List Pos) : ℚ :=
  pairwiseSum (fun a b => |b.getD 2 0 - a.getD 2 0|) coords

/-- The horizontal keys of the original vertices, as used by
`stripNonOriginalElevations` (the JavaScript string key
`"lon,lat"` is faithfully a pair, since number-to-string is
injective). -/
def originalKeys (coords : List Pos) : List (ℚ × ℚ) := coords.map key

/-- One vertex of `stripNonOriginalElevations`: a vertex whose
horizontal key is not an original one loses its elevation component
(`point.length = 2` truncation); others are untouched. -/
def stripPoint (ks : List (ℚ × ℚ)) (p : Pos) : Pos :=
  if key p ∉ ks ∧ 3 ≤ p.length then p.take 2 else p

/-- The function stripNonOriginalElevations of ElevationProfile.ts. -/
def stripNonOriginalElevations (gs : List (List Pos)) (coords : List Pos) :
    List (List Pos) :=
  gs.map (fun g => g.map (stripPoint (originalKeys coords)))

/-- The endpoint-pinning assignment
`lastChunkCoords[lastChunkCoords.length - 1] = lastOriginalPoint`:
on a non-empty array it replaces the last element; on an empty array
the JavaScript assignment to index `-1` leaves the array contents
unchanged. -/
def setLast (l : List Pos) (p : Pos) : List Pos :=
  match l with
  | [] => []
  | _ :: _ => l.dropLast ++ [p]

/-- The function lineChunkPatched of ElevationProfile.ts, parameterized by the
external turf splitting primitive `LC`.  Out-of-range array accesses
(possible only when `LC` returns no chunks or the path is empty) are
the `outOfBounds` error, matching the JavaScript crash. -/
def lineChunkPatched (D : ℚ × ℚ → ℚ × ℚ → ℚ)
    (LC : List Pos → ℚ → List (List Pos)) (coords : List Pos)
    (minResolutionInMeters : ℚ) : Except ElevErr (ℚ × List (List Pos)) :=
  let resolutionInMeters := horizontalResolutionFitting D coords minResolutionInMeters
  let lineChunks := LC coords resolutionInMeters
  match lineChunks.getLast? with
  | none => .error .outOfBounds
  | some lastSegment =>
    let lastSegmentLength := lineLength D lastSegment
    let chunks1 :=
      if lastSegmentLength < resolutionInMeters * (1 / 100) then
        lineChunks.dropLast
      else lineChunks
    match coords.getLast? with
    | none => .error .outOfBounds
    | some lastOriginalPoint =>
      match chunks1.getLast? with
      | none => .error .outOfBounds
      | some lastChunk =>
        let pinned := chunks1.dropLast ++ [setLast lastChunk lastOriginalPoint]
        .ok (resolutionInMeters, stripNonOriginalElevations pinned coords)

/-- One flattened vertex of `interpolateElevation`: the coordinate
array, its precomputed elevation flag, its index in the flattened
sequence, and its cumulative geodesic distance from the start. -/
structure FlatPoint : Type where
  point : Pos
  hasElevation : Bool
  index : ℕ
  distanceFromStart : ℚ
deriving DecidableEq, Repr

instance : Inhabited FlatPoint := ⟨⟨[], false, 0, 0⟩⟩

/-- The flattening loop of `interpolateElevation`: walks the
concatenated chunk vertices tracking the running index and cumulative
distance (distance to the previous point, horizontal components
only). -/
def flattenAux (D : ℚ × ℚ → ℚ × ℚ → ℚ) :
    List Pos → Option Pos → ℕ → ℚ → List FlatPoint
  | [], _, _, _ => []
  | p :: rest, prev, i, total =>
    let total' := match prev with
      | none => total
      | some q => total + D (key q) (key p)
    ⟨p, decide (3 ≤ p.length), i, total'⟩ :: flattenAux D rest (some p) (i + 1) total'

/-- The list allPoints of interpolateElevation. -/
def flattenPoints (D : ℚ × ℚ → ℚ × ℚ → ℚ) (geoms : List (List Pos)) :
    List FlatPoint :=
  flattenAux D geoms.flatten none 0 0

/-- The interpolated elevation for a point at cumulative distance `dj`
between the reference points `s` and `e`: linear interpolation in
distance, or the start elevation when the references are coincident
(`distanceBetweenRefs ≤ 0`). -/
def interpValue (s e : FlatPoint) (dj : ℚ) : ℚ :=
  let startElevation := s.point.getD 2 0
  let elevationDelta := e.point.getD 2 0 - startElevation
  let distanceBetweenRefs := e.distanceFromStart - s.distanceFromStart
  if distanceBetweenRefs > 0 then
    startElevation +
      elevationDelta * ((dj - s.distanceFromStart) / distanceBetweenRefs)
  else startElevation

/-- The inner loop of `interpolateElevation` over the flat indices `l`
strictly between two reference points: a point that already carries
elevation aborts with `alreadyElevated`; otherwise the interpolated
elevation is pushed onto the point at that index. -/
def interpFold (allPts : List FlatPoint) (s e : FlatPoint) :
    List ℕ → List Pos → Except ElevErr (List Pos)
  | [], pts => .ok pts
  | j :: rest, pts =>
    let pointData := allPts.getD j default
    if pointData.hasElevation then .error .alreadyElevated
    else
      interpFold allPts s e rest
        (pts.set j (pts.getD j [] ++ [interpValue s e pointData.distanceFromStart]))

/-- One reference segment of `interpolateElevation`: checks the
references are in sequence, then interpolates every index strictly
between them. -/
def interpSegment (allPts : List FlatPoint) (s e : FlatPoint)
    (pts : List Pos) : Except ElevErr (List Pos) :=
  if e.index ≤ s.index then .error .sequenceViolation
  else interpFold allPts s e (List.range' (s.index + 1) (e.index - (s.index + 1))) pts

/-- The outer loop of `interpolateElevation` over consecutive pairs of
reference points. -/
def processSegments (allPts : List FlatPoint) :
    List FlatPoint → List Pos → Except ElevErr (List Pos)
  | [], pts => .ok pts
  | [_], pts => .ok pts
  | s :: e :: rest, pts =>
    match interpSegment allPts s e pts with
    | .error err => .error err
    | .ok pts' => processSegments allPts (e :: rest) pts'

/-- Regroup a flat vertex list into the chunk shape of `gs` (the
in-place mutation of the source leaves the chunk structure intact). -/
def reshape : List (List Pos) → List Pos → List (List Pos)
  | [], _ => []
  | g :: gs, pts => pts.take g.length :: reshape gs (pts.drop g.length)

/-- The function interpolateElevation of ElevationProfile.ts, functionally: returns
the chunk list with interpolated elevations pushed onto the synthetic
vertices.  An empty chunk list returns unchanged; fewer than two
elevation-bearing vertices is `insufficientReferenceData`. -/
def interpolateElevation (D : ℚ × ℚ → ℚ × ℚ → ℚ) (geoms : List (List Pos)) :
    Except ElevErr (List (List Pos)) :=
  match geoms with
  | [] => .ok []
  | _ :: _ =>
    let allPts := flattenPoints D geoms
    let referencePoints := allPts.filter (fun p => p.hasElevation)
    if referencePoints.length ≤ 1 then .error .insufficientReferenceData
    else
      match processSegments allPts referencePoints (allPts.map (fun p => p.point)) with
      | .error err => .error err
      | .ok pts => .ok (reshape geoms pts)

/-- The per-chunk body of the max-pitch loop of `getPitchData`:
`|elevationChange / chunkLength|` from the chunk first and last
vertices; an empty chunk would crash in JavaScript. -/
def chunkPitch (D : ℚ × ℚ → ℚ × ℚ → ℚ) (chunk : List Pos) : Except ElevErr ℚ :=
  match chunk with
  | [] => .error .outOfBounds
  | p :: _ =>
    let endPoint := chunk.getLastD []
    let elevationChange := endPoint.getD 2 0 - p.getD 2 0
    let chunkLengthInMeters := lineLength D chunk
    .ok |elevationChange / chunkLengthInMeters|

/-- The max-pitch loop of `getPitchData`, starting from 0. -/
def maxPitchOverChunks (D : ℚ × ℚ → ℚ × ℚ → ℚ) :
    List (List Pos) → ℚ → Except ElevErr ℚ
  | [], acc => .ok acc
  | c :: rest, acc =>
    match chunkPitch D c with
    | .error err => .error err
    | .ok p => maxPitchOverChunks D rest (if p > acc then p else acc)

/-- The function getPitchData of ElevationProfile.ts.  `sq` is `Math.sqrt`, `LC`
the external turf splitting primitive; the default
`minResolutionInMeters` of the source is 25 and is always passed
explicitly here. -/
def getPitchData (D : ℚ × ℚ → ℚ × ℚ → ℚ) (sq : ℚ → ℚ)
    (LC : List Pos → ℚ → List (List Pos)) (coords : List Pos)
    (minResolutionInMeters : ℚ) : Except ElevErr PitchData :=
  match coords with
  | [] => .error .outOfBounds
  | c0 :: _ =>
    if c0.length < 3 then .error .elevationRequiredSlope
    else
      let totalLength := lineLength D coords
      let totalInclinedLength := inclinedLength D sq coords
      let totalElevationChange := totalAbsElevationChange coords
      if totalLength < minResolutionInMeters / 2 then
        .ok ⟨none, none, totalInclinedLength, none, totalLength⟩
      else
        match lineChunkPatched D LC coords minResolutionInMeters with
        | .error err => .error err
        | .ok (actualResolutionInMeters, chunkedGeometries) =>
          match interpolateElevation D chunkedGeometries with
          | .error err => .error err
          | .ok elevatedChunks =>
            match maxPitchOverChunks D elevatedChunks 0 with
            | .error err => .error err
            | .ok maxPitchValue =>
              let averagePitch := totalElevationChange / totalLength
              let overallElevationChange :=
                |(coords.getLastD []).getD 2 0 - c0.getD 2 0|
              .ok ⟨some averagePitch, some maxPitchValue, totalInclinedLength,
                   some (overallElevationChange / totalLength),
                   actualResolutionInMeters⟩

/-- The `ElevationProfile` record of ElevationProfile.ts. -/
structure ElevationProfile : Type where
  heights : List ℚ
  resolution : ℚ
  targetResolution : ℚ
deriving DecidableEq, Repr

/-- The function extractPointsForElevationProfile of ElevationProfile.ts: the first
vertex of every chunk, horizontal components only, plus the last
vertex of the last chunk when that chunk has more than one vertex. -/
def extractPointsForElevationProfile (D : ℚ × ℚ → ℚ × ℚ → ℚ)
    (LC : List Pos → ℚ → List (List Pos)) (coords : List Pos)
    (minResolutionInMeters : ℚ) : Except ElevErr (ℚ × List Pos) :=
  match lineChunkPatched D LC coords minResolutionInMeters with
  | .error err => .error err
  | .ok (resolutionInMeters, lineChunks) =>
    match lineChunks.mapM (fun subline =>
        match subline with
        | [] => Except.error ElevErr.outOfBounds
        | p :: _ => Except.ok [p.getD 0 0, p.getD 1 0]) with
    | .error err => .error err
    | .ok points =>
      let points2 :=
        match lineChunks.getLast? with
        | none => points
        | some lastChunk =>
          if 1 < lastChunk.length then
            points ++ [[(lastChunk.getLastD []).getD 0 0, (lastChunk.getLastD []).getD 1 0]]
          else points
      .ok (resolutionInMeters, points2)

/-- The function getProfileGeometry of ElevationProfile.ts: recompute the profile
points at the stored target resolution, validate count and resolution
against the stored profile, then zip the stored heights onto the
points. -/
def getProfileGeometry (D : ℚ × ℚ → ℚ × ℚ → ℚ)
    (LC : List Pos → ℚ → List (List Pos)) (coords : List Pos)
    (elevationProfile : ElevationProfile) : Except ElevErr (List Pos) :=
  match extractPointsForElevationProfile D LC coords
      elevationProfile.targetResolution with
  | .error err => .error err
  | .ok (actualResolution, points) =>
    if points.length ≠ elevationProfile.heights.length then
      .error .pointsMismatch
    else if |actualResolution - elevationProfile.resolution| >
        elevationProfile.resolution * (1 / 1000) then
      .error .resolutionMismatch
    else
      .ok (List.zipWith (fun p h => p ++ [h]) points elevationProfile.heights)

/-- A trivial splitting primitive returning the whole path as a single
chunk, used to instantiate witnesses of theorems that are agnostic in
the primitive. -/
def singleChunk (coords : List Pos) (_r : ℚ) : List (List Pos) := [coords]

/-- C1: on a fully elevated path whose total horizontal length is below
half of `minResolutionInMeters`, `getPitchData` returns `null` average,
max and overall pitch but still the inclined length (the sum of
`sqrt(len² + Δelev²)` over original segments); for a two-point path of
positive length that inclined length is positive. -/
theorem getPitchData_short_path :
    (∀ (D : ℚ × ℚ → ℚ × ℚ → ℚ) (sq : ℚ → ℚ) (LC : List Pos → ℚ → List (List Pos))
        (coords : List Pos) (c0 : Pos) (rest : List Pos) (minRes : ℚ),
      coords = c0 :: rest →
      (∀ p ∈ coords, 3 ≤ p.length) →
      lineLength D coords < minRes / 2 →
      getPitchData D sq LC coords minRes =
        .ok ⟨none, none, inclinedLength D sq coords, none, lineLength D coords⟩) ∧
    (∀ (D : ℚ × ℚ → ℚ × ℚ → ℚ) (sq : ℚ → ℚ) (LC : List Pos → ℚ → List (List Pos))
        (p q : Pos) (minRes : ℚ),
      3 ≤ p.length → 3 ≤ q.length →
      (∀ x : ℚ, 0 < x → 0 < sq x) →
      0 < D (key p) (key q) →
      lineLength D [p, q] < minRes / 2 →
      getPitchData D sq LC [p, q] minRes =
        .ok ⟨none, none, inclinedLength D sq [p, q], none, lineLength D [p, q]⟩ ∧
      0 < inclinedLength D sq [p, q]) := by
  have main : ∀ (D : ℚ × ℚ → ℚ × ℚ → ℚ) (sq : ℚ → ℚ)
      (LC : List Pos → ℚ → List (List Pos))
      (coords : List Pos) (c0 : Pos) (rest : List Pos) (minRes : ℚ),
      coords = c0 :: rest →
      (∀ p ∈ coords, 3 ≤ p.length) →
      lineLength D coords < minRes / 2 →
      getPitchData D sq LC coords minRes =
        .ok ⟨none, none, inclinedLength D sq coords, none, lineLength D coords⟩ := by
    intro D sq LC coords c0 rest minRes hc helev hshort
    subst hc
    have h3 : 3 ≤ c0.length := helev c0 (List.mem_cons_self _ _)
    have hlt : ¬(c0.length < 3) := not_lt.mpr h3
    simp only [getPitchData, hlt, if_false, hshort, if_true]
  refine ⟨main, ?_⟩
  intro D sq LC p q minRes hp hq hsq hD hshort
  refine ⟨main D sq LC [p, q] p [q] minRes rfl ?_ hshort, ?_⟩
  · intro x hx
    rcases List.mem_cons.mp hx with rfl | hx'
    · exact hp
    · rcases List.mem_cons.mp hx' with rfl | h
      · exact hq
      · exact absurd h (List.not_mem_nil x)
  · have hval : inclinedLength D sq [p, q] =
        sq (D (key p) (key q) * D (key p) (key q) +
          (q.getD 2 0 - p.getD 2 0) * (q.getD 2 0 - p.getD 2 0)) := by
      simp [inclinedLength, pairwiseSum]
    rw [hval]
    apply hsq
    have h1 : 0 < D (key p) (key q) * D (key p) (key q) := mul_pos hD hD
    have h2 : 0 ≤ (q.getD 2 0 - p.getD 2 0) * (q.getD 2 0 - p.getD 2 0) :=
      mul_self_nonneg _
    linarith

/-- Witness for C1 at a two-point fully elevated path of squared
length 1 with `minResolution = 25` (`sq` instantiated with the
identity, which preserves positivity). -/
theorem getPitchData_short_path_witness :
    getPitchData sqD id singleChunk [[0, 0, 100], [0, 1, 101]] 25 =
      .ok ⟨none, none, inclinedLength sqD id [[0, 0, 100], [0, 1, 101]], none,
           lineLength sqD [[0, 0, 100], [0, 1, 101]]⟩ ∧
    0 < inclinedLength sqD id [[0, 0, 100], [0, 1, 101]] := by
  refine getPitchData_short_path.2 sqD id singleChunk [0, 0, 100] [0, 1, 101] 25
    (by norm_num) (by norm_num) (fun x hx => hx) ?_ ?_
  · show (0 : ℚ) < sqD (key [0, 0, 100]) (key [0, 1, 101])
    norm_num [sqD, key]
  · show lineLength sqD [[0, 0, 100], [0, 1, 101]] < 25 / 2
    norm_num [lineLength, pairwiseSum, sqD, key]

/-- C10: `getPitchData` has no emptiness guard — the empty path fails
with the out-of-bounds access `coordinates[0]`, not a designed error;
its designed `elevationRequiredSlope` error therefore implies the path
is non-empty; `getAscentAndDescent`, by contrast, checks emptiness
first with its designed `emptyCoordinates` error. -/
theorem getPitchData_empty_unguarded :
    (∀ (D : ℚ × ℚ → ℚ × ℚ → ℚ) (sq : ℚ → ℚ)
        (LC : List Pos → ℚ → List (List Pos)) (minRes : ℚ),
      getPitchData D sq LC [] minRes = .error .outOfBounds) ∧
    (∀ (D : ℚ × ℚ → ℚ × ℚ → ℚ) (sq : ℚ → ℚ)
        (LC : List Pos → ℚ → List (List Pos)) (coords : List Pos) (minRes : ℚ),
      getPitchData D sq LC coords minRes = .error .elevationRequiredSlope →
      coords ≠ []) ∧
    getAscentAndDescent [] = .error .emptyCoordinates := by
  refine ⟨fun D sq LC minRes => rfl, ?_, rfl⟩
  intro D sq LC coords minRes herr hc
  subst hc
  have : (Except.error ElevErr.outOfBounds :
      Except ElevErr PitchData) = .error .elevationRequiredSlope := herr
  simp at this

/-- Witness for C10: the single-vertex 2-D path reaches the designed
error, and is indeed non-empty. -/
theorem getPitchData_empty_unguarded_witness :
    ([[0, 0]] : List Pos) ≠ [] ∧
    getPitchData sqD id singleChunk [] 25 = .error .outOfBounds := by
  constructor
  · exact getPitchData_empty_unguarded.2.1 sqD id singleChunk [[0, 0]] 25
      (by norm_num [getPitchData])
  · exact getPitchData_empty_unguarded.1 sqD id singleChunk 25

/-- Counterexample to C5 as stated: the empty chunk list contains
fewer than two elevation-bearing vertices, yet `interpolateElevation`
returns normally (the early `if (geometries.length === 0) return`)
instead of failing with `insufficientReferenceData`. -/
theorem interpolateElevation_empty_returns :
    interpolateElevation sqD [] = .ok [] ∧
    ((flattenPoints sqD ([] : List (List Pos))).filter
        (fun p => p.hasElevation)).length < 2 := by
  constructor
  · rfl
  · show (List.filter _ (flattenPoints sqD [])).length < 2
    simp [flattenPoints, flattenAux]

/-- C5 (amended to non-empty chunk lists): whenever the chunk list is
non-empty and carries fewer than two elevation-bearing vertices,
`interpolateElevation` fails with `insufficientReferenceData`. -/
theorem interpolateElevation_insufficient (D : ℚ × ℚ → ℚ × ℚ → ℚ)
    (geoms : List (List Pos)) (g0 : List Pos) (gs : List (List Pos))
    (hg : geoms = g0 :: gs)
    (href : ((flattenPoints D geoms).filter (fun p => p.hasElevation)).length < 2) :
    interpolateElevation D geoms = .error .insufficientReferenceData := by
  subst hg
  have h1 : ((flattenPoints D (g0 :: gs)).filter (fun p => p.hasElevation)).length ≤ 1 :=
    Nat.lt_succ_iff.mp href
  simp only [interpolateElevation, h1, if_true]

/-- Witness for C5 amended claim: a single two-vertex chunk with no
elevations fails with `insufficientReferenceData`. -/
theorem interpolateElevation_insufficient_witness :
    interpolateElevation sqD [[[0, 0], [1, 0]]] = .error .insufficientReferenceData := by
  refine interpolateElevation_insufficient sqD _ [[0, 0], [1, 0]] [] rfl ?_
  show (List.filter _ (flattenPoints sqD [[[0, 0], [1, 0]]])).length < 2
  norm_num [flattenPoints, flattenAux, List.filter]

theorem stripPoint_mem_eq (coords : List Pos) (p : Pos) (hp : p ∈ coords) :
    stripPoint (originalKeys coords) p = p := by
  have hk : key p ∈ originalKeys coords := List.mem_map_of_mem key hp
  simp only [stripPoint]
  rw [if_neg]
  intro h
  exact h.1 hk

/-- Elimination of a successful `lineChunkPatched` call into its
constituent steps. -/
theorem lineChunkPatched_ok_elim (D : ℚ × ℚ → ℚ × ℚ → ℚ)
    (LC : List Pos → ℚ → List (List Pos)) (coords : List Pos) (m r : ℚ)
    (chks : List (List Pos))
    (hok : lineChunkPatched D LC coords m = .ok (r, chks)) :
    r = horizontalResolutionFitting D coords m ∧
    ∃ lastSeg lastOrig lastChunk,
      (LC coords r).getLast? = some lastSeg ∧
      coords.getLast? = some lastOrig ∧
      (if lineLength D lastSeg < r * (1 / 100) then (LC coords r).dropLast
        else LC coords r).getLast? = some lastChunk ∧
      chks = stripNonOriginalElevations
        ((if lineLength D lastSeg < r * (1 / 100) then (LC coords r).dropLast
           else LC coords r).dropLast ++ [setLast lastChunk lastOrig]) coords := by
  simp only [lineChunkPatched] at hok
  split at hok
  · simp at hok
  · rename_i lastSeg h1
    split at hok
    · simp at hok
    · rename_i lastOrig h2
      split at hok
      · simp at hok
      · rename_i lastChunk h3
        rw [Except.ok.injEq, Prod.mk.injEq] at hok
        obtain ⟨hr, hc⟩ := hok
        subst hr
        exact ⟨rfl, lastSeg, lastOrig, lastChunk, h1, h2, h3, hc.symm⟩

/-- C4: when `lineChunkPatched` succeeds and its final chunk is
non-empty, the last vertex of that final chunk — after the
spurious-elevation stripping step — is exactly the last vertex of the
input path (the stripping never touches an original vertex). -/
theorem lineChunkPatched_endpoint (D : ℚ × ℚ → ℚ × ℚ → ℚ)
    (LC : List Pos → ℚ → List (List Pos)) (coords : List Pos) (m r : ℚ)
    (chks : List (List Pos)) (lc : List Pos)
    (hok : lineChunkPatched D LC coords m = .ok (r, chks))
    (hlast : chks.getLast? = some lc) (hne : lc ≠ []) :
    lc.getLast? = coords.getLast? := by
  obtain ⟨hr, lastSeg, lastOrig, lastChunk, h1, h2, h3, h4⟩ :=
    lineChunkPatched_ok_elim D LC coords m r chks hok
  subst h4
  rw [stripNonOriginalElevations, List.map_append, List.map_cons, List.map_nil,
    List.getLast?_concat, Option.some.injEq] at hlast
  cases lastChunk with
  | nil =>
    rw [← hlast] at hne
    simp [setLast] at hne
  | cons h t =>
    rw [← hlast]
    show (((h :: t).dropLast ++ [lastOrig]).map
        (stripPoint (originalKeys coords))).getLast? = _
    rw [List.map_append, List.map_cons, List.map_nil, List.getLast?_concat]
    rw [stripPoint_mem_eq coords lastOrig (List.mem_of_getLast?_eq_some h2), h2]

/-- Witness for C4 at a concrete two-vertex 2-D path through the
single-chunk primitive. -/
theorem lineChunkPatched_endpoint_witness :
    ([[0, 0], [3, 4]] : List Pos).getLast? = some [3, 4] ∧
    lineChunkPatched sqD singleChunk [[0, 0], [3, 4]] 25 =
      .ok (25, [[[0, 0], [3, 4]]]) := by
  have hok : lineChunkPatched sqD singleChunk [[0, 0], [3, 4]] 25 =
      .ok (25, [[[0, 0], [3, 4]]]) := by
    have hL : lineLength sqD [[0, 0], [3, 4]] = 25 := by
      norm_num [lineLength, pairwiseSum, sqD, key]
    have hfit : horizontalResolutionFitting sqD [[0, 0], [3, 4]] 25 = 25 := by
      simp only [horizontalResolutionFitting, hL]
      norm_num [Int.ceil_intCast]
    have hnoshort : ¬(lineLength sqD [[0, 0], [3, 4]] < 25 * (1 / 100)) := by
      rw [hL]
      norm_num
    simp only [lineChunkPatched, hfit, singleChunk]
    norm_num [hL, List.getLast?, List.getLast_singleton, setLast,
      stripNonOriginalElevations, stripPoint, originalKeys, key, List.dropLast]
  refine ⟨?_, hok⟩
  have h := lineChunkPatched_endpoint sqD singleChunk [[0, 0], [3, 4]] 25 25
    [[[0, 0], [3, 4]]] [[0, 0], [3, 4]] hok (by rfl) (by simp)
  rw [← h]
  rfl

/-- C9: `lineChunkPatched` succeeds on every non-empty path for which
the external splitting primitive returns chunks (with at least two of
them whenever the short-last-chunk drop fires), and on a zero-length
path — where the fitted resolution is 0 and the primitive returns the
whole path — it returns that single degenerate chunk with resolution
0. -/
theorem lineChunkPatched_total :
    (∀ (D : ℚ × ℚ → ℚ × ℚ → ℚ) (LC : List Pos → ℚ → List (List Pos))
        (coords : List Pos) (m : ℚ) (c0 : Pos) (cr : List Pos) (lastSeg : List Pos),
      coords = c0 :: cr →
      (LC coords (horizontalResolutionFitting D coords m)).getLast? = some lastSeg →
      (lineLength D lastSeg < horizontalResolutionFitting D coords m * (1 / 100) →
        2 ≤ (LC coords (horizontalResolutionFitting D coords m)).length) →
      ∃ r chks, lineChunkPatched D LC coords m = .ok (r, chks)) ∧
    (∀ (D : ℚ × ℚ → ℚ × ℚ → ℚ) (LC : List Pos → ℚ → List (List Pos))
        (coords : List Pos) (m : ℚ) (c0 : Pos) (cr : List Pos),
      coords = c0 :: cr →
      lineLength D coords = 0 →
      LC coords 0 = [coords] →
      lineChunkPatched D LC coords m = .ok (0, [coords])) := by
  constructor
  · intro D LC coords m c0 cr lastSeg hc hlast hpop
    subst hc
    obtain ⟨lastOrig, ho⟩ : ∃ x, (c0 :: cr).getLast? = some x :=
      ⟨_, List.getLast?_eq_getLast _ (List.cons_ne_nil c0 cr)⟩
    simp only [lineChunkPatched, hlast, ho]
    by_cases hshort : lineLength D lastSeg <
        horizontalResolutionFitting D (c0 :: cr) m * (1 / 100)
    · have hif : (if lineLength D lastSeg <
            horizontalResolutionFitting D (c0 :: cr) m * (1 / 100) then
          (LC (c0 :: cr) (horizontalResolutionFitting D (c0 :: cr) m)).dropLast
        else LC (c0 :: cr) (horizontalResolutionFitting D (c0 :: cr) m)) =
          (LC (c0 :: cr) (horizontalResolutionFitting D (c0 :: cr) m)).dropLast :=
        if_pos hshort
      have hlen := hpop hshort
      have hd : (LC (c0 :: cr) (horizontalResolutionFitting D (c0 :: cr) m)).dropLast ≠ [] := by
        intro hnil
        have := List.length_dropLast
          (LC (c0 :: cr) (horizontalResolutionFitting D (c0 :: cr) m))
        rw [hnil] at this
        simp only [List.length_nil] at this
        omega
      obtain ⟨lastChunk, hlc⟩ : ∃ x,
          (LC (c0 :: cr) (horizontalResolutionFitting D (c0 :: cr) m)).dropLast.getLast? =
            some x := by
        cases h : (LC (c0 :: cr)
            (horizontalResolutionFitting D (c0 :: cr) m)).dropLast.getLast? with
        | none => exact absurd (List.getLast?_eq_none_iff.mp h) hd
        | some x => exact ⟨x, rfl⟩
      simp only [hif, hlc]
      exact ⟨_, _, rfl⟩
    · have hif : (if lineLength D lastSeg <
            horizontalResolutionFitting D (c0 :: cr) m * (1 / 100) then
          (LC (c0 :: cr) (horizontalResolutionFitting D (c0 :: cr) m)).dropLast
        else LC (c0 :: cr) (horizontalResolutionFitting D (c0 :: cr) m)) =
          LC (c0 :: cr) (horizontalResolutionFitting D (c0 :: cr) m) :=
        if_neg hshort
      simp only [hif, hlast]
      exact ⟨_, _, rfl⟩
  · intro D LC coords m c0 cr hc hL hLC
    subst hc
    have hfit : horizontalResolutionFitting D (c0 :: cr) m = 0 := by
      simp only [horizontalResolutionFitting, hL, if_true]
    obtain ⟨lastOrig, ho⟩ : ∃ x, (c0 :: cr).getLast? = some x :=
      ⟨_, List.getLast?_eq_getLast _ (List.cons_ne_nil c0 cr)⟩
    simp only [lineChunkPatched, hfit, hLC]
    have hone : ([c0 :: cr] : List (List Pos)).getLast? = some (c0 :: cr) := rfl
    simp only [hone, ho]
    have hshort : ¬(lineLength D (c0 :: cr) < 0 * (1 / 100)) := by
      rw [hL]
      norm_num
    rw [if_neg hshort]
    have hset : setLast (c0 :: cr) lastOrig = c0 :: cr := by
      show (c0 :: cr).dropLast ++ [lastOrig] = c0 :: cr
      have := List.getLast?_eq_getLast (c0 :: cr) (List.cons_ne_nil c0 cr)
      rw [this, Option.some.injEq] at ho
      rw [← ho]
      exact List.dropLast_concat_getLast _
    have hmap : List.map (stripPoint (originalKeys (c0 :: cr))) (c0 :: cr) =
        c0 :: cr := by
      rw [List.map_congr_left (fun p hp => stripPoint_mem_eq (c0 :: cr) p hp)]
      exact List.map_id _
    have hstrip : stripNonOriginalElevations [c0 :: cr] (c0 :: cr) = [c0 :: cr] := by
      show [List.map (stripPoint (originalKeys (c0 :: cr))) (c0 :: cr)] = [c0 :: cr]
      rw [hmap]
    simp only [hone, List.dropLast_single, List.nil_append, hset, hstrip]

/-- Witness for C9: part (a) at the concrete length-25 path, part (b)
at a degenerate duplicated-vertex path of zero length. -/
theorem lineChunkPatched_total_witness :
    (∃ r chks, lineChunkPatched sqD singleChunk [[0, 0], [3, 4]] 25 = .ok (r, chks)) ∧
    lineChunkPatched sqD singleChunk [[1, 2], [1, 2]] 25 = .ok (0, [[[1, 2], [1, 2]]]) := by
  constructor
  · refine lineChunkPatched_total.1 sqD singleChunk [[0, 0], [3, 4]] 25
      [0, 0] [[3, 4]] [[0, 0], [3, 4]] rfl rfl ?_
    intro hshort
    exact absurd hshort (by
      have hfit : horizontalResolutionFitting sqD [[0, 0], [3, 4]] 25 = 25 := by
        have hL : lineLength sqD [[0, 0], [3, 4]] = 25 := by
          norm_num [lineLength, pairwiseSum, sqD, key]
        simp only [horizontalResolutionFitting, hL]
        norm_num [Int.ceil_intCast]
      rw [hfit]
      have hL : lineLength sqD [[0, 0], [3, 4]] = 25 := by
        norm_num [lineLength, pairwiseSum, sqD, key]
      rw [hL]
      norm_num)
  · refine lineChunkPatched_total.2 sqD singleChunk [[1, 2], [1, 2]] 25
      [1, 2] [[1, 2]] rfl ?_ rfl
    norm_num [lineLength, pairwiseSum, sqD, key]

/-- C8: given the recomputed profile points at the stored target
resolution, `getProfileGeometry` fails with the `ProfileMismatch`-kind
error `pointsMismatch` when the point count differs from the stored
heights, with `resolutionMismatch` when the recomputed resolution is
off by more than 0.1% of the stored one, and otherwise succeeds with
`heights[i]` appended to point `i`, index by index. -/
theorem getProfileGeometry_spec (D : ℚ × ℚ → ℚ × ℚ → ℚ)
    (LC : List Pos → ℚ → List (List Pos)) (coords : List Pos)
    (profile : ElevationProfile) (r : ℚ) (pts : List Pos)
    (hex : extractPointsForElevationProfile D LC coords profile.targetResolution =
      .ok (r, pts)) :
    (pts.length ≠ profile.heights.length →
      getProfileGeometry D LC coords profile = .error .pointsMismatch) ∧
    (pts.length = profile.heights.length →
      |r - profile.resolution| > profile.resolution * (1 / 1000) →
      getProfileGeometry D LC coords profile = .error .resolutionMismatch) ∧
    (pts.length = profile.heights.length →
      ¬(|r - profile.resolution| > profile.resolution * (1 / 1000)) →
      getProfileGeometry D LC coords profile =
        .ok (List.zipWith (fun p h => p ++ [h]) pts profile.heights)) := by
  refine ⟨?_, ?_, ?_⟩
  · intro hlen
    simp only [getProfileGeometry, hex]
    rw [if_pos hlen]
  · intro hlen hres
    simp only [getProfileGeometry, hex]
    rw [if_neg (by simp [hlen]), if_pos hres]
  · intro hlen hres
    simp only [getProfileGeometry, hex]
    rw [if_neg (by simp [hlen]), if_neg hres]

/-- Witness for C8: the success branch at a concrete two-point 2-D
path and an exactly matching stored profile. -/
theorem getProfileGeometry_spec_witness :
    getProfileGeometry sqD singleChunk [[0, 0], [3, 4]] ⟨[10, 20], 25, 25⟩ =
      .ok [[0, 0, 10], [3, 4, 20]] := by
  have hok : lineChunkPatched sqD singleChunk [[0, 0], [3, 4]] 25 =
      .ok (25, [[[0, 0], [3, 4]]]) := lineChunkPatched_endpoint_witness.2
  have hex : extractPointsForElevationProfile sqD singleChunk [[0, 0], [3, 4]]
      ((⟨[10, 20], 25, 25⟩ : ElevationProfile).targetResolution) =
        .ok (25, [[0, 0], [3, 4]]) := by
    show extractPointsForElevationProfile sqD singleChunk [[0, 0], [3, 4]] 25 =
      .ok (25, [[0, 0], [3, 4]])
    simp only [extractPointsForElevationProfile, hok]
    norm_num [List.mapM, List.mapM.loop, List.getLast?, List.getLastD, key]
  have h := (getProfileGeometry_spec sqD singleChunk [[0, 0], [3, 4]]
    ⟨[10, 20], 25, 25⟩ 25 [[0, 0], [3, 4]] hex).2.2 (by norm_num) (by norm_num)
  rw [h]
  norm_num [List.zipWith]

theorem getD_set_ne {α : Type} (l : List α) (i j : ℕ) (a d : α) (h : i ≠ j) :
    (l.set i a).getD j d = l.getD j d := by
  simp [List.getD_eq_getElem?_getD, List.getElem?_set_ne h]

theorem getD_set_self {α : Type} (l : List α) (i : ℕ) (a d : α) (h : i < l.length) :
    (l.set i a).getD i d = a := by
  simp [List.getD_eq_getElem?_getD, List.getElem?_set_self h]

theorem mem_range'_one {a n j : ℕ} : j ∈ List.range' a n ↔ a ≤ j ∧ j < a + n := by
  rw [List.mem_range']
  constructor
  · rintro ⟨i, hi, rfl⟩
    omega
  · intro h
    exact ⟨j - a, by omega, by omega⟩

theorem flattenAux_length (D : ℚ × ℚ → ℚ × ℚ → ℚ) :
    ∀ (l : List Pos) (prev : Option Pos) (i : ℕ) (t : ℚ),
    (flattenAux D l prev i t).length = l.length := by
  intro l
  induction l with
  | nil => intro prev i t; rfl
  | cons p rest ih =>
    intro prev i t
    simp only [flattenAux, List.length_cons, ih]

theorem flattenAux_mem_index (D : ℚ × ℚ → ℚ × ℚ → ℚ) :
    ∀ (l : List Pos) (prev : Option Pos) (i : ℕ) (t : ℚ) (fp : FlatPoint),
    fp ∈ flattenAux D l prev i t → i ≤ fp.index ∧ fp.index < i + l.length := by
  intro l
  induction l with
  | nil => intro prev i t fp h; exact absurd h (List.not_mem_nil fp)
  | cons p rest ih =>
    intro prev i t fp h
    simp only [flattenAux] at h
    rcases List.mem_cons.mp h with rfl | hmem
    · simp only [List.length_cons]
      omega
    · have := ih _ _ _ _ hmem
      simp only [List.length_cons]
      omega

theorem flattenAux_mem_flag (D : ℚ × ℚ → ℚ × ℚ → ℚ) :
    ∀ (l : List Pos) (prev : Option Pos) (i : ℕ) (t : ℚ) (fp : FlatPoint),
    fp ∈ flattenAux D l prev i t →
    fp.hasElevation = decide (3 ≤ fp.point.length) := by
  intro l
  induction l with
  | nil => intro prev i t fp h; exact absurd h (List.not_mem_nil fp)
  | cons p rest ih =>
    intro prev i t fp h
    simp only [flattenAux] at h
    rcases List.mem_cons.mp h with rfl | hmem
    · rfl
    · exact ih _ _ _ _ hmem

theorem flattenAux_getD_index (D : ℚ × ℚ → ℚ × ℚ → ℚ) :
    ∀ (l : List Pos) (prev : Option Pos) (i : ℕ) (t : ℚ) (fp : FlatPoint),
    fp ∈ flattenAux D l prev i t →
    (flattenAux D l prev i t).getD (fp.index - i) default = fp := by
  intro l
  induction l with
  | nil => intro prev i t fp h; exact absurd h (List.not_mem_nil fp)
  | cons p rest ih =>
    intro prev i t fp h
    simp only [flattenAux] at h ⊢
    rcases List.mem_cons.mp h with rfl | hmem
    · simp
    · have hbound := flattenAux_mem_index D rest _ _ _ fp hmem
      have hk : fp.index - i = (fp.index - (i + 1)) + 1 := by omega
      rw [hk, List.getD_cons_succ]
      exact ih _ _ _ _ hmem

theorem flattenAux_pairwise (D : ℚ × ℚ → ℚ × ℚ → ℚ) :
    ∀ (l : List Pos) (prev : Option Pos) (i : ℕ) (t : ℚ),
    (flattenAux D l prev i t).Pairwise (fun a b => a.index < b.index) := by
  intro l
  induction l with
  | nil => intro prev i t; exact List.Pairwise.nil
  | cons p rest ih =>
    intro prev i t
    simp only [flattenAux, List.pairwise_cons]
    constructor
    · intro b hb
      have := flattenAux_mem_index D rest _ _ _ b hb
      show i < b.index
      omega
    · exact ih _ _ _

theorem flattenAux_map_point (D : ℚ × ℚ → ℚ × ℚ → ℚ) :
    ∀ (l : List Pos) (prev : Option Pos) (i : ℕ) (t : ℚ),
    (flattenAux D l prev i t).map (fun p => p.point) = l := by
  intro l
  induction l with
  | nil => intro prev i t; rfl
  | cons p rest ih =>
    intro prev i t
    simp only [flattenAux, List.map_cons, ih]

theorem flattenPoints_getD (D : ℚ × ℚ → ℚ × ℚ → ℚ) (geoms : List (List Pos))
    (fp : FlatPoint) (h : fp ∈ flattenPoints D geoms) :
    (flattenPoints D geoms).getD fp.index default = fp ∧
    fp.index < (flattenPoints D geoms).length := by
  constructor
  · have := flattenAux_getD_index D geoms.flatten none 0 0 fp h
    simpa using this
  · have h1 := flattenAux_mem_index D geoms.flatten none 0 0 fp h
    have h2 := flattenAux_length D geoms.flatten none 0 0
    show fp.index < (flattenAux D geoms.flatten none 0 0).length
    omega

theorem getD_map_point (l : List FlatPoint) (j : ℕ) (h : j < l.length) :
    (l.map (fun p => p.point)).getD j [] = (l.getD j default).point := by
  rw [List.getD_eq_getElem (l.map (fun p => p.point)) [] (by simpa using h),
    List.getD_eq_getElem l default h, List.getElem_map]

theorem interpFold_ok_length (allPts : List FlatPoint) (s e : FlatPoint) :
    ∀ (l : List ℕ) (pts pts' : List Pos),
    interpFold allPts s e l pts = .ok pts' → pts'.length = pts.length := by
  intro l
  induction l with
  | nil =>
    intro pts pts' h
    simp only [interpFold] at h
    rw [Except.ok.injEq] at h
    rw [← h]
  | cons j rest ih =>
    intro pts pts' h
    simp only [interpFold] at h
    split at h
    · simp at h
    · rw [ih _ _ h, List.length_set]

theorem interpFold_untouched (allPts : List FlatPoint) (s e : FlatPoint) :
    ∀ (l : List ℕ) (pts pts' : List Pos) (j : ℕ),
    interpFold allPts s e l pts = .ok pts' → j ∉ l →
    pts'.getD j [] = pts.getD j [] := by
  intro l
  induction l with
  | nil =>
    intro pts pts' j h _
    simp only [interpFold] at h
    rw [Except.ok.injEq] at h
    rw [← h]
  | cons j' rest ih =>
    intro pts pts' j h hj
    have hne : j' ≠ j := fun he => hj (he ▸ List.mem_cons_self j' rest)
    have hnr : j ∉ rest := fun hr => hj (List.mem_cons_of_mem j' hr)
    simp only [interpFold] at h
    split at h
    · simp at h
    · rw [ih _ _ _ h hnr, getD_set_ne _ _ _ _ _ hne]

theorem interpFold_assigned (allPts : List FlatPoint) (s e : FlatPoint) :
    ∀ (n a : ℕ) (pts pts' : List Pos),
    interpFold allPts s e (List.range' a n) pts = .ok pts' →
    ∀ j, a ≤ j → j < a + n → j < pts.length →
    (allPts.getD j default).hasElevation = false ∧
    pts'.getD j [] = pts.getD j [] ++
      [interpValue s e ((allPts.getD j default).distanceFromStart)] := by
  intro n
  induction n with
  | zero =>
    intro a pts pts' _ j h1 h2 _
    omega
  | succ n ih =>
    intro a pts pts' h j h1 h2 h3
    rw [List.range'_succ] at h
    simp only [interpFold] at h
    split at h
    · simp at h
    · rename_i hflag
      have hflag' : (allPts.getD a default).hasElevation = false :=
        Bool.not_eq_true _ ▸ (by simpa using hflag)
      rcases Nat.eq_or_lt_of_le h1 with heq | hlt
      · subst heq
        constructor
        · exact hflag'
        · have hnr : a ∉ List.range' (a + 1) n := by
            rw [mem_range'_one]
            omega
          rw [interpFold_untouched allPts s e _ _ _ a h hnr,
            getD_set_self _ _ _ _ h3]
      · have := ih (a + 1) _ _ h j (by omega) (by omega)
          (by rw [List.length_set]; exact h3)
        refine ⟨this.1, ?_⟩
        rw [this.2, getD_set_ne _ _ _ _ _ (by omega)]

theorem interpFold_flagged (allPts : List FlatPoint) (s e : FlatPoint) :
    ∀ (l : List ℕ) (pts : List Pos) (j : ℕ),
    j ∈ l → (allPts.getD j default).hasElevation = true →
    interpFold allPts s e l pts = .error .alreadyElevated := by
  intro l
  induction l with
  | nil => intro pts j h _; exact absurd h (List.not_mem_nil j)
  | cons j' rest ih =>
    intro pts j hmem hflag
    by_cases hflag' : (allPts.getD j' default).hasElevation = true
    · simp only [interpFold, hflag', if_true]
    · rcases List.mem_cons.mp hmem with rfl | hr
      · exact absurd hflag hflag'
      · simp only [interpFold, hflag', if_false]
        exact ih _ j hr hflag

theorem interpSegment_ok_elim (allPts : List FlatPoint) (s e : FlatPoint)
    (pts pts' : List Pos) (h : interpSegment allPts s e pts = .ok pts') :
    s.index < e.index ∧
    interpFold allPts s e (List.range' (s.index + 1) (e.index - (s.index + 1)))
      pts = .ok pts' := by
  simp only [interpSegment] at h
  split at h
  · simp at h
  · rename_i hle
    exact ⟨not_le.mp hle, h⟩

theorem interpSegment_length (allPts : List FlatPoint) (s e : FlatPoint)
    (pts pts' : List Pos) (h : interpSegment allPts s e pts = .ok pts') :
    pts'.length = pts.length :=
  interpFold_ok_length allPts s e _ _ _ (interpSegment_ok_elim allPts s e pts pts' h).2

theorem interpSegment_untouched (allPts : List FlatPoint) (s e : FlatPoint)
    (pts pts' : List Pos) (j : ℕ) (h : interpSegment allPts s e pts = .ok pts')
    (hj : j ≤ s.index ∨ e.index ≤ j) :
    pts'.getD j [] = pts.getD j [] := by
  obtain ⟨hs, hfold⟩ := interpSegment_ok_elim allPts s e pts pts' h
  refine interpFold_untouched allPts s e _ _ _ j hfold ?_
  rw [mem_range'_one]
  omega

theorem interpSegment_assigned (allPts : List FlatPoint) (s e : FlatPoint)
    (pts pts' : List Pos) (j : ℕ) (h : interpSegment allPts s e pts = .ok pts')
    (h1 : s.index < j) (h2 : j < e.index) (h3 : j < pts.length) :
    (allPts.getD j default).hasElevation = false ∧
    pts'.getD j [] = pts.getD j [] ++
      [interpValue s e ((allPts.getD j default).distanceFromStart)] := by
  obtain ⟨hs, hfold⟩ := interpSegment_ok_elim allPts s e pts pts' h
  exact interpFold_assigned allPts s e _ _ _ _ hfold j (by omega) (by omega) h3

theorem processSegments_length (allPts : List FlatPoint) :
    ∀ (l : List FlatPoint) (pts pts' : List Pos),
    processSegments allPts l pts = .ok pts' → pts'.length = pts.length := by
  intro l
  induction l with
  | nil =>
    intro pts pts' h
    simp only [processSegments] at h
    rw [Except.ok.injEq] at h
    rw [← h]
  | cons s rest ih =>
    intro pts pts' h
    cases rest with
    | nil =>
      simp only [processSegments] at h
      rw [Except.ok.injEq] at h
      rw [← h]
    | cons e rest' =>
      simp only [processSegments] at h
      split at h
      · simp at h
      · rename_i pts1 hseg
        rw [ih _ _ h, interpSegment_length allPts s e _ _ hseg]

theorem processSegments_untouched (allPts : List FlatPoint) :
    ∀ (l : List FlatPoint) (pts pts' : List Pos) (j : ℕ),
    processSegments allPts l pts = .ok pts' → (∀ a ∈ l, j ≤ a.index) →
    pts'.getD j [] = pts.getD j [] := by
  intro l
  induction l with
  | nil =>
    intro pts pts' j h _
    simp only [processSegments] at h
    rw [Except.ok.injEq] at h
    rw [← h]
  | cons s rest ih =>
    intro pts pts' j h hall
    cases rest with
    | nil =>
      simp only [processSegments] at h
      rw [Except.ok.injEq] at h
      rw [← h]
    | cons e rest' =>
      simp only [processSegments] at h
      split at h
      · simp at h
      · rename_i pts1 hseg
        rw [ih _ _ _ h (fun a ha => hall a (List.mem_cons_of_mem s ha)),
          interpSegment_untouched allPts s e _ _ j hseg
            (Or.inl (hall s (List.mem_cons_self s _)))]

theorem processSegments_refs_untouched (allPts : List FlatPoint) :
    ∀ (l : List FlatPoint) (pts pts' : List Pos) (r : FlatPoint),
    processSegments allPts l pts = .ok pts' →
    l.Pairwise (fun a b => a.index < b.index) → r ∈ l →
    pts'.getD r.index [] = pts.getD r.index [] := by
  intro l
  induction l with
  | nil => intro pts pts' r _ _ hr; exact absurd hr (List.not_mem_nil r)
  | cons s rest ih =>
    intro pts pts' r h hp hr
    cases rest with
    | nil =>
      simp only [processSegments] at h
      rw [Except.ok.injEq] at h
      rw [← h]
    | cons e rest' =>
      simp only [processSegments] at h
      split at h
      · simp at h
      · rename_i pts1 hseg
        have hp1 : ∀ b ∈ e :: rest', s.index < b.index :=
          (List.pairwise_cons.mp hp).1
        have hp2 : (e :: rest').Pairwise (fun a b => a.index < b.index) :=
          (List.pairwise_cons.mp hp).2
        rcases List.mem_cons.mp hr with rfl | hmem
        · rw [processSegments_untouched allPts _ _ _ r.index h
            (fun a ha => le_of_lt (hp1 a ha)),
            interpSegment_untouched allPts r e _ _ r.index hseg (Or.inl le_rfl)]
        · have he_le : e.index ≤ r.index := by
            rcases List.mem_cons.mp hmem with rfl | hmem'
            · exact le_rfl
            · exact le_of_lt ((List.pairwise_cons.mp hp2).1 r hmem')
          rw [ih _ _ _ h hp2 hmem,
            interpSegment_untouched allPts s e _ _ r.index hseg (Or.inr he_le)]

theorem processSegments_between (allPts : List FlatPoint) :
    ∀ (pre : List FlatPoint) (l : List FlatPoint) (s e : FlatPoint)
      (post : List FlatPoint) (pts pts' : List Pos),
    l = pre ++ s :: e :: post →
    processSegments allPts l pts = .ok pts' →
    l.Pairwise (fun a b => a.index < b.index) →
    ∀ j, s.index < j → j < e.index → j < pts.length →
    (allPts.getD j default).hasElevation = false ∧
    pts'.getD j [] = pts.getD j [] ++
      [interpValue s e ((allPts.getD j default).distanceFromStart)] := by
  intro pre
  induction pre with
  | nil =>
    intro l s e post pts pts' hl h hp j h1 h2 h3
    subst hl
    rw [List.nil_append] at h hp
    simp only [processSegments] at h
    split at h
    · simp at h
    · rename_i pts1 hseg
      have hassigned := interpSegment_assigned allPts s e _ _ j hseg h1 h2 h3
      have hrest : ∀ a ∈ e :: post, j ≤ a.index := by
        intro a ha
        rcases List.mem_cons.mp ha with rfl | hmem
        · omega
        · have : e.index < a.index :=
            (List.pairwise_cons.mp (List.pairwise_cons.mp hp).2).1 a hmem
          omega
      rw [processSegments_untouched allPts _ _ _ j h hrest]
      exact hassigned
  | cons a pre' ih =>
    intro l s e post pts pts' hl h hp j h1 h2 h3
    subst hl
    have hs_mem : s ∈ pre' ++ s :: e :: post :=
      List.mem_append_right _ (List.mem_cons_self s _)
    cases hpre : pre' with
    | nil =>
      subst hpre
      rw [List.cons_append, List.nil_append] at h hp
      simp only [processSegments] at h
      split at h
      · simp at h
      · rename_i pts1 hseg
        have hlen : pts1.length = pts.length :=
          interpSegment_length allPts a s _ _ hseg
        have := ih (s :: e :: post) s e post pts1 pts' rfl h
          (List.pairwise_cons.mp hp).2 j h1 h2 (by omega)
        refine ⟨this.1, ?_⟩
        rw [this.2, interpSegment_untouched allPts a s _ _ j hseg
          (Or.inr (le_of_lt h1))]
    | cons c pre'' =>
      subst hpre
      rw [List.cons_append, List.cons_append] at h hp
      simp only [processSegments] at h
      split at h
      · simp at h
      · rename_i pts1 hseg
        have hlen : pts1.length = pts.length :=
          interpSegment_length allPts a c _ _ hseg
        have hp2 : (c :: (pre'' ++ s :: e :: post)).Pairwise
            (fun a b => a.index < b.index) := by
          have := (List.pairwise_cons.mp hp).2
          rwa [← List.cons_append] at this
        have hcs : c.index < s.index := by
          have hs_mem' : s ∈ pre'' ++ s :: e :: post :=
            List.mem_append_right _ (List.mem_cons_self s _)
          exact (List.pairwise_cons.mp hp2).1 s hs_mem'
        have := ih (c :: (pre'' ++ s :: e :: post)) s e post pts1 pts'
          (by rw [List.cons_append]) h hp2 j h1 h2 (by omega)
        refine ⟨this.1, ?_⟩
        rw [this.2, interpSegment_untouched allPts a c _ _ j hseg
          (Or.inr (by omega))]

theorem reshape_flatten : ∀ (gs : List (List Pos)) (pts : List Pos),
    pts.length = gs.flatten.length → (reshape gs pts).flatten = pts := by
  intro gs
  induction gs with
  | nil =>
    intro pts h
    simp only [List.flatten_nil, List.length_nil] at h
    rw [List.length_eq_zero] at h
    rw [h]
    rfl
  | cons g gs ih =>
    intro pts h
    simp only [List.flatten_cons, List.length_append] at h
    simp only [reshape, List.flatten_cons]
    rw [ih (pts.drop g.length) (by simp only [List.length_drop]; omega)]
    exact List.take_append_drop _ _

/-- Elimination of a successful `interpolateElevation` call on a
non-empty chunk list into its constituent steps. -/
theorem interpolateElevation_ok_elim (D : ℚ × ℚ → ℚ × ℚ → ℚ)
    (geoms res : List (List Pos)) (g0 : List Pos) (gs : List (List Pos))
    (hg : geoms = g0 :: gs) (hok : interpolateElevation D geoms = .ok res) :
    1 < ((flattenPoints D geoms).filter (fun p => p.hasElevation)).length ∧
    ∃ pts, processSegments (flattenPoints D geoms)
        ((flattenPoints D geoms).filter (fun p => p.hasElevation))
        ((flattenPoints D geoms).map (fun p => p.point)) = .ok pts ∧
      res = reshape geoms pts := by
  subst hg
  simp only [interpolateElevation] at hok
  split at hok
  · simp at hok
  · rename_i hguard
    split at hok
    · simp at hok
    · rename_i pts hproc
      rw [Except.ok.injEq] at hok
      exact ⟨not_le.mp hguard, pts, hproc, hok.symm⟩

/-- C6: `interpolateElevation` never overwrites an elevation-bearing
vertex — on success every such vertex is returned unchanged — and the
segment-processing step fails loudly with `alreadyElevated` whenever a
vertex strictly between two reference points carries the elevation
flag, instead of reassigning it. -/
theorem interpolateElevation_preserves_refs :
    (∀ (D : ℚ × ℚ → ℚ × ℚ → ℚ) (geoms res : List (List Pos)),
      interpolateElevation D geoms = .ok res →
      ∀ fp ∈ flattenPoints D geoms, fp.hasElevation = true →
      res.flatten.getD fp.index [] = fp.point) ∧
    (∀ (allPts : List FlatPoint) (s e : FlatPoint) (pts : List Pos) (j : ℕ),
      s.index < j → j < e.index →
      (allPts.getD j default).hasElevation = true →
      interpSegment allPts s e pts = .error .alreadyElevated) := by
  constructor
  · intro D geoms res hok fp hfp hflag
    cases geoms with
    | nil =>
      exact absurd hfp (by simp [flattenPoints, flattenAux])
    | cons g0 gs =>
      obtain ⟨hguard, pts, hproc, hres⟩ :=
        interpolateElevation_ok_elim D _ res g0 gs rfl hok
      have hmem_refs : fp ∈ (flattenPoints D (g0 :: gs)).filter
          (fun p => p.hasElevation) :=
        List.mem_filter.mpr ⟨hfp, hflag⟩
      have hpair : ((flattenPoints D (g0 :: gs)).filter
          (fun p => p.hasElevation)).Pairwise (fun a b => a.index < b.index) :=
        List.Pairwise.filter _ (flattenAux_pairwise D _ _ _ _)
      have huntouched := processSegments_refs_untouched
        (flattenPoints D (g0 :: gs)) _ _ _ fp hproc hpair hmem_refs
      obtain ⟨hgetD, hlt⟩ := flattenPoints_getD D (g0 :: gs) fp hfp
      have hlenpts : pts.length = (g0 :: gs).flatten.length := by
        rw [processSegments_length _ _ _ _ hproc, List.length_map]
        have := flattenAux_length D (g0 :: gs).flatten none 0 0
        exact this
      rw [hres, reshape_flatten _ _ hlenpts, huntouched,
        getD_map_point _ _ hlt, hgetD]
  · intro allPts s e pts j h1 h2 hflag
    have hns : ¬(e.index ≤ s.index) := by omega
    simp only [interpSegment, hns, if_false]
    refine interpFold_flagged allPts s e _ pts j ?_ hflag
    rw [mem_range'_one]
    omega

/-- C3: on success of `interpolateElevation`, every vertex strictly
between two consecutive reference points is assigned, by push onto its
coordinate array, the elevation linearly interpolated in cumulative
geodesic distance — and the start elevation when the two references
are coincident in distance. -/
theorem interpolateElevation_linear (D : ℚ × ℚ → ℚ × ℚ → ℚ)
    (geoms res : List (List Pos))
    (hok : interpolateElevation D geoms = .ok res)
    (pre : List FlatPoint) (s e : FlatPoint) (post : List FlatPoint)
    (hrefs : (flattenPoints D geoms).filter (fun p => p.hasElevation) =
      pre ++ s :: e :: post)
    (j : ℕ) (h1 : s.index < j) (h2 : j < e.index) :
    (0 < e.distanceFromStart - s.distanceFromStart →
      res.flatten.getD j [] = ((flattenPoints D geoms).getD j default).point ++
        [s.point.getD 2 0 + (e.point.getD 2 0 - s.point.getD 2 0) *
          ((((flattenPoints D geoms).getD j default).distanceFromStart -
              s.distanceFromStart) /
            (e.distanceFromStart - s.distanceFromStart))]) ∧
    (e.distanceFromStart - s.distanceFromStart = 0 →
      res.flatten.getD j [] =
        ((flattenPoints D geoms).getD j default).point ++ [s.point.getD 2 0]) := by
  cases geoms with
  | nil =>
    exfalso
    have : ((flattenPoints D ([] : List (List Pos))).filter
        (fun p => p.hasElevation)) = [] := by
      simp [flattenPoints, flattenAux]
    rw [this] at hrefs
    exact absurd hrefs.symm (by simp)
  | cons g0 gs =>
    obtain ⟨hguard, pts, hproc, hres⟩ :=
      interpolateElevation_ok_elim D _ res g0 gs rfl hok
    have hpair : ((flattenPoints D (g0 :: gs)).filter
        (fun p => p.hasElevation)).Pairwise (fun a b => a.index < b.index) :=
      List.Pairwise.filter _ (flattenAux_pairwise D _ _ _ _)
    have he_mem : e ∈ (flattenPoints D (g0 :: gs)).filter
        (fun p => p.hasElevation) := by
      rw [hrefs]
      exact List.mem_append_right _ (List.mem_cons_of_mem s (List.mem_cons_self e _))
    have he_all : e ∈ flattenPoints D (g0 :: gs) := List.mem_of_mem_filter he_mem
    have hebound := (flattenPoints_getD D (g0 :: gs) e he_all).2
    have hlen0 : ((flattenPoints D (g0 :: gs)).map (fun p => p.point)).length =
        (flattenPoints D (g0 :: gs)).length := List.length_map _ _
    have hjlen : j < ((flattenPoints D (g0 :: gs)).map (fun p => p.point)).length := by
      omega
    have hrefs' : (flattenPoints D (g0 :: gs)).filter (fun p => p.hasElevation) =
        pre ++ s :: e :: post := hrefs
    rw [hrefs'] at hproc hpair
    have hbetween := processSegments_between (flattenPoints D (g0 :: gs)) pre
      (pre ++ s :: e :: post) s e post _ pts rfl hproc hpair j h1 h2 hjlen
    have hlenpts : pts.length = (g0 :: gs).flatten.length := by
      rw [processSegments_length _ _ _ _ hproc, List.length_map]
      exact flattenAux_length D (g0 :: gs).flatten none 0 0
    have hflat : res.flatten = pts := by
      rw [hres]
      exact reshape_flatten _ _ hlenpts
    have hjlt : j < (flattenPoints D (g0 :: gs)).length := by omega
    have hmain : res.flatten.getD j [] =
        ((flattenPoints D (g0 :: gs)).getD j default).point ++
        [interpValue s e
          (((flattenPoints D (g0 :: gs)).getD j default).distanceFromStart)] := by
      rw [hflat, hbetween.2, getD_map_point _ _ hjlt]
    constructor
    · intro hpos
      rw [hmain]
      simp only [interpValue]
      rw [if_pos hpos]
    · intro hzero
      rw [hmain]
      simp only [interpValue]
      rw [if_neg (by rw [hzero]; exact lt_irrefl 0)]

/-- Concrete flattening of the three-vertex example chunk (elevations
on the outer vertices only). -/
theorem interpEx_flatten :
    flattenPoints sqD [[[0, 0, 100], [1, 0], [2, 0, 300]]] =
      [⟨[0, 0, 100], true, 0, 0⟩, ⟨[1, 0], false, 1, 1⟩,
       ⟨[2, 0, 300], true, 2, 2⟩] := by
  norm_num [flattenPoints, flattenAux, key, sqD]

/-- Concrete run of `interpolateElevation` on the example chunk: the
middle vertex gets the linearly interpolated elevation 200. -/
theorem interpEx_eval :
    interpolateElevation sqD [[[0, 0, 100], [1, 0], [2, 0, 300]]] =
      .ok [[[0, 0, 100], [1, 0, 200], [2, 0, 300]]] := by
  simp only [interpolateElevation, interpEx_flatten]
  norm_num [List.filter, processSegments, interpSegment, interpFold, interpValue,
    List.range', reshape, List.set, List.getD, List.take, List.drop]

/-- Witness for C6: the reference vertex at flat index 0 is returned
unchanged, and a flagged vertex strictly between two references makes
the segment step fail with `alreadyElevated`. -/
theorem interpolateElevation_preserves_refs_witness :
    ([[[0, 0, 100], [1, 0, 200], [2, 0, 300]]] : List (List Pos)).flatten.getD 0 [] =
      [0, 0, 100] ∧
    interpSegment
      [⟨[0, 0, 100], true, 0, 0⟩, ⟨[1, 0, 150], true, 1, 1⟩,
       ⟨[2, 0, 300], true, 2, 2⟩]
      ⟨[0, 0, 100], true, 0, 0⟩ ⟨[2, 0, 300], true, 2, 2⟩
      [[0, 0, 100], [1, 0, 150], [2, 0, 300]] = .error .alreadyElevated := by
  constructor
  · exact interpolateElevation_preserves_refs.1 sqD
      [[[0, 0, 100], [1, 0], [2, 0, 300]]] _ interpEx_eval
      ⟨[0, 0, 100], true, 0, 0⟩
      (by rw [interpEx_flatten]; exact List.mem_cons_self _ _) rfl
  · exact interpolateElevation_preserves_refs.2 _ _ _ _ 1
      (by norm_num) (by norm_num) rfl

/-- Witness for C3: the synthetic middle vertex of the example chunk
receives exactly the linearly interpolated elevation. -/
theorem interpolateElevation_linear_witness :
    ([[[0, 0, 100], [1, 0, 200], [2, 0, 300]]] : List (List Pos)).flatten.getD 1 [] =
      [1, 0, 200] := by
  have h := interpolateElevation_linear sqD [[[0, 0, 100], [1, 0], [2, 0, 300]]]
    [[[0, 0, 100], [1, 0, 200], [2, 0, 300]]] interpEx_eval
    [] ⟨[0, 0, 100], true, 0, 0⟩ ⟨[2, 0, 300], true, 2, 2⟩ []
    (by rw [interpEx_flatten]; rfl) 1 (by norm_num) (by norm_num)
  have h1 := h.1 (by norm_num)
  rw [interpEx_flatten] at h1
  rw [h1]
  norm_num [List.getD]

end OpenSkiData
